import Mathlib

/-!
# Verification of the `fixeddec` fixed-point decimal library

Shallow embedding of `FixedDec<T, P>` (src/lib.rs) and its backing-integer
capability trait `Number` (src/number.rs).  A backing kind `T` is modelled by
a `Kind` (signedness and bit width); raw values of the kind are integers in
the kind's range.  Machine arithmetic is `Int` arithmetic with explicit range
checks; the checked operations return `Option Int` with `none` for Rust's
`None`.  Operations that can panic (integer overflow in `abs`, a failing
`unwrap`, the construction-time `assert!`) are modelled as `Option`-returning
functions whose `none` stands for the panic.
-/

namespace FixedDecSpec

/-- A primitive integer kind: signedness and bit width.  The library supports
the Rust built-in integer types, i.e. widths 8, 16, 32, 64 and 128, signed
and unsigned. -/
structure Kind where
  signed : Bool
  bits : Nat
deriving DecidableEq

/-- The supported kinds all have at least 8 bits. -/
def Kind.wf (K : Kind) : Prop := 8 ≤ K.bits

instance (K : Kind) : Decidable K.wf := by unfold Kind.wf; infer_instance

/-- Largest value representable in the kind. -/
def Kind.max (K : Kind) : Int :=
  if K.signed then 2 ^ (K.bits - 1) - 1 else 2 ^ K.bits - 1

/-- Smallest value representable in the kind. -/
def Kind.min (K : Kind) : Int :=
  if K.signed then -(2 ^ (K.bits - 1)) else 0

/-- `x` is representable in the kind. -/
def Kind.inRange (K : Kind) (x : Int) : Prop := K.min ≤ x ∧ x ≤ K.max

instance (K : Kind) (x : Int) : Decidable (K.inRange x) := by
  unfold Kind.inRange; infer_instance

def u8K : Kind := ⟨false, 8⟩
def u16K : Kind := ⟨false, 16⟩
def u32K : Kind := ⟨false, 32⟩
def u64K : Kind := ⟨false, 64⟩
def u128K : Kind := ⟨false, 128⟩
def i8K : Kind := ⟨true, 8⟩
def i16K : Kind := ⟨true, 16⟩
def i32K : Kind := ⟨true, 32⟩
def i64K : Kind := ⟨true, 64⟩
def i128K : Kind := ⟨true, 128⟩

/-- Two's-complement wrap of an integer into the kind's range (what Rust's
`overflowing_*` operations return in their first component). -/
def Kind.wrap (K : Kind) (x : Int) : Int :=
  if K.signed then (x + 2 ^ (K.bits - 1)) % 2 ^ K.bits - 2 ^ (K.bits - 1)
  else x % 2 ^ K.bits

/-- `Number::ten_power` from src/number.rs (macro `number_impl`):
`let (r, overflowed) = overflowing_pow(10, p); (!overflowed).then_some(r)`.
`overflowing_pow` is Rust std: it returns the wrapped value of `10^p`
together with a flag that is set exactly when the true `10^p` is out of the
kind's range. -/
def tenPower (K : Kind) (p : Nat) : Option Int :=
  if K.inRange (10 ^ p) then some (K.wrap (10 ^ p)) else none

/-- `checked_add` of the kind: `none` on overflow. -/
def checkedAdd (K : Kind) (a b : Int) : Option Int :=
  if K.inRange (a + b) then some (a + b) else none

/-- `checked_sub` of the kind: `none` on overflow. -/
def checkedSub (K : Kind) (a b : Int) : Option Int :=
  if K.inRange (a - b) then some (a - b) else none

/-- `checked_mul` of the kind: `none` on overflow. -/
def checkedMul (K : Kind) (a b : Int) : Option Int :=
  if K.inRange (a * b) then some (a * b) else none

/-- `checked_div` of the kind: `none` when the divisor is zero or the
quotient overflows (`MIN / -1`).  Rust division truncates toward zero,
i.e. `Int.tdiv`. -/
def checkedDiv (K : Kind) (a b : Int) : Option Int :=
  if b = 0 then none
  else if K.inRange (a.tdiv b) then some (a.tdiv b) else none

/-- `checked_rem` of the kind (the raw Rust primitive): `none` when the
divisor is zero or the underlying division overflows (`MIN % -1`).  Rust's
`%` truncates toward zero, i.e. `Int.tmod`. -/
def checkedRemRaw (K : Kind) (a b : Int) : Option Int :=
  if b = 0 then none
  else if K.signed ∧ a = K.min ∧ b = -1 then none
  else some (a.tmod b)

/-- Rust `abs()` on a signed kind.  At `MIN` the absolute value is not
representable: Rust raises an arithmetic-overflow panic, modelled as
`none`. -/
def rustAbs (K : Kind) (a : Int) : Option Int :=
  if K.inRange |a| then some |a| else none

/-- `Number::checked_rem` as the trait dispatches it (src/number.rs):
unsigned kinds use the plain checked remainder (`number_unsigned_impl`),
signed kinds first take `self.abs()` and then the checked remainder
(`number_signed_impl`). -/
def numCheckedRem (K : Kind) (a b : Int) : Option Int :=
  if K.signed then (rustAbs K a).bind fun x => checkedRemRaw K x b
  else checkedRemRaw K a b

/-- Modelled from the spec: the `Number` trait's single-ASCII-digit
conversion `from_digit10` is referenced by `FixedDec::from_str` but its
definition is not among the provided sources.  Per the spec it maps
`'0'..'9'` to `0..9` and anything else to the absence signal. -/
def from_digit10 (c : Char) : Option Int :=
  if c.isDigit then some ((c.toNat : Int) - 48) else none

/-- Validity of the digit count `P` for the kind: `10^P` must be
representable.  This is the condition `FixedDec::new` asserts. -/
def Kind.validP (K : Kind) (P : Nat) : Prop := 10 ^ P ≤ K.max

instance (K : Kind) (P : Nat) : Decidable (K.validP P) := by
  unfold Kind.validP; infer_instance

/-- `FixedDec::new` (src/lib.rs): wraps the raw value after asserting that
the digit count is valid for the kind (`assert!(T::TEN_POWER.len() > P)`,
equivalent to `ten_power(P).is_some()`; the `TEN_POWER` table itself is not
among the provided sources — per the spec the assertion checks that
`10^P` fits the backing kind).  The assertion panic is modelled as `none`. -/
def mkNew (K : Kind) (P : Nat) (t : Int) : Option Int :=
  if (tenPower K P).isSome then some t else none

/-- `FixedDec::from_integral` (src/lib.rs):
`ten_power::<T>(P).and_then(|prec| t.checked_mul(prec).map(Self))`. -/
def fromIntegral (K : Kind) (P : Nat) (t : Int) : Option Int :=
  (tenPower K P).bind fun prec => checkedMul K t prec

/-- `FixedDec::set_precision::<O>` (src/lib.rs): compare `P` with `O`;
equal returns the raw value unchanged, greater divides by `10^(P-O)`
(checked), less multiplies by `10^(O-P)` (checked). -/
def setPrecision (K : Kind) (P O : Nat) (v : Int) : Option Int :=
  if P = O then some v
  else if O < P then
    (tenPower K (P - O)).bind fun prec => checkedDiv K v prec
  else
    (tenPower K (O - P)).bind fun prec => checkedMul K v prec

/-- `FixedDec::round_at` (src/lib.rs): for `prec >= P` the value itself,
otherwise `self.0 - self.0.checked_rem(ten_power(P-prec).unwrap()).unwrap()`.
The unwrap panics and the debug-mode overflow panic of the bare `-` are
modelled as `none`. -/
def roundAt (K : Kind) (P : Nat) (v : Int) (prec : Nat) : Option Int :=
  if P ≤ prec then some v
  else
    (tenPower K (P - prec)).bind fun wrap =>
    (numCheckedRem K v wrap).bind fun r =>
    checkedSub K v r

/-- `FixedDec::integral` (src/lib.rs):
`ten_power::<T>(P).and_then(|prec| self.0.checked_div(prec)).unwrap()`;
the unwrap panic is modelled as `none`. -/
def integral (K : Kind) (P : Nat) (v : Int) : Option Int :=
  (tenPower K P).bind fun prec => checkedDiv K v prec

/-- `FixedDec::fractional` (src/lib.rs):
`ten_power::<T>(P).and_then(|prec| self.0.checked_rem(prec)).unwrap()`
(where `checked_rem` is the trait's, taking `abs` first on signed kinds);
the unwrap panic is modelled as `none`. -/
def fractional (K : Kind) (P : Nat) (v : Int) : Option Int :=
  (tenPower K P).bind fun prec => numCheckedRem K v prec

/-- `str::split_once('.')`: split at the first occurrence of the separator,
`none` when absent. -/
def splitOnce (sep : Char) : List Char → Option (List Char × List Char)
  | [] => none
  | c :: cs =>
    if c = sep then some ([], cs)
    else (splitOnce sep cs).map fun p => (c :: p.1, p.2)

/-- The digit-accumulation loop of `FixedDec::from_str`:
`for c { let i = T::from_digit10(c)?; acc = acc.checked_mul(ten)?.checked_add(i)?; }`. -/
def accDigits (K : Kind) (ten : Int) (acc : Int) : List Char → Option Int
  | [] => some acc
  | c :: cs =>
    (from_digit10 c).bind fun i =>
    (checkedMul K acc ten).bind fun m =>
    (checkedAdd K m i).bind fun a =>
    accDigits K ten a cs

/-- The `Some((i1, f1))` branch of `FixedDec::from_str`: both sides must be
all ASCII digits; the integral side is accumulated, then the fractional
side up to depth `P` (the loop `break`s at `depth >= P`, i.e. it consumes
`f1.take P`); if the fractional side is shorter than `P` the accumulator is
scaled up by `ten_power(P - sz_frac)`; the result goes through
`Self::new`. -/
def fromStrFrac (K : Kind) (P : Nat) (ten : Int) (i1 f1 : List Char) :
    Option Int :=
  if ¬ i1.all Char.isDigit then none
  else if ¬ f1.all Char.isDigit then none
  else
    (accDigits K ten 0 i1).bind fun acc1 =>
    (accDigits K ten acc1 (f1.take P)).bind fun acc2 =>
    (if f1.length < P then
      (tenPower K (P - f1.length)).bind fun mul => checkedMul K acc2 mul
     else some acc2).bind fun acc3 =>
    mkNew K P acc3

/-- The no-`'.'` branch of `FixedDec::from_str`: the whole string must be
ASCII digits; accumulate, then `Self::from_integral`. -/
def fromStrInt (K : Kind) (P : Nat) (ten : Int) (s : List Char) :
    Option Int :=
  if ¬ s.all Char.isDigit then none
  else
    (accDigits K ten 0 s).bind fun acc =>
    fromIntegral K P acc

/-- `FixedDec::from_str` (src/lib.rs).  `ten = ten_power(1).unwrap()` (the
unwrap panic modelled as `none`; it cannot fire on the supported kinds),
then dispatch on `s.split_once('.')`. -/
def fromStr (K : Kind) (P : Nat) (s : List Char) : Option Int :=
  (tenPower K 1).bind fun ten =>
  match splitOnce '.' s with
  | some (i1, f1) => fromStrFrac K P ten i1 f1
  | none => fromStrInt K P ten s

/-- The character for decimal digit `d`. -/
def digitChar (d : Nat) : Char := Char.ofNat (48 + d)

/-- Rust's `Display` for an unsigned machine integer: minimal decimal
digits, most significant first, `"0"` for zero. -/
def natChars (n : Nat) : List Char :=
  if n = 0 then ['0'] else ((Nat.digits 10 n).map digitChar).reverse

/-- Rust's `Display`/`Debug` for a machine integer: a `'-'` sign followed by
the magnitude's digits when negative. -/
def intChars (x : Int) : List Char :=
  if x < 0 then '-' :: natChars x.natAbs else natChars x.toNat

/-- The `{:0width$}` format padding: left-pad with `'0'` to at least `w`
characters (sign handling is irrelevant here: the padded operand, the
fractional part, is never negative when formatting succeeds). -/
def zeroPad (w : Nat) (l : List Char) : List Char :=
  List.replicate (w - l.length) '0' ++ l

/-- The `Debug`/`Display` formatting of `FixedDec` (src/lib.rs):
`write!(f, "{}.{:0width$}", self.integral(), self.fractional(), width = P)`.
A panic inside `integral`/`fractional` is modelled as `none`. -/
def formatDec (K : Kind) (P : Nat) (v : Int) : Option (List Char) :=
  (integral K P v).bind fun i =>
  (fractional K P v).bind fun f =>
  some (intChars i ++ '.' :: zeroPad P (intChars f))

/-- The integer value of a digit character (`'0'..'9'` → `0..9`). -/
def charVal (c : Char) : Int := (c.toNat : Int) - 48

/-- The value of a big-endian digit string accumulated on top of `acc` by
repeated multiply-by-ten-and-add (the mathematical shadow of the checked
accumulation loop in `from_str`). -/
def digitsVal (acc : Int) (l : List Char) : Int :=
  l.foldl (fun a c => 10 * a + charVal c) acc

/-! ## Basic facts about kinds and the capability operations -/

theorem Kind.min_nonpos (K : Kind) : K.min ≤ 0 := by
  unfold Kind.min
  split
  · have : (0:Int) ≤ 2 ^ (K.bits - 1) := by positivity
    omega
  · omega

theorem Kind.max_nonneg (K : Kind) : 0 ≤ K.max := by
  unfold Kind.max
  split
  · have : (0:Int) < 2 ^ (K.bits - 1) := by positivity
    omega
  · have : (0:Int) < 2 ^ K.bits := by positivity
    omega

theorem Kind.ten_le_max (K : Kind) (hK : K.wf) : 10 ≤ K.max := by
  have hb : 8 ≤ K.bits := hK
  unfold Kind.max
  split
  · have h7 : (2:Int) ^ 7 ≤ 2 ^ (K.bits - 1) :=
      pow_le_pow_right₀ one_le_two (by omega)
    norm_num at h7 ⊢
    omega
  · have h8 : (2:Int) ^ 8 ≤ 2 ^ K.bits :=
      pow_le_pow_right₀ one_le_two (by omega)
    norm_num at h8 ⊢
    omega

theorem Kind.wrap_eq_of_inRange (K : Kind) (hK : 1 ≤ K.bits) {x : Int}
    (hx : K.inRange x) : K.wrap x = x := by
  obtain ⟨h1, h2⟩ := hx
  unfold Kind.wrap
  simp only [Kind.min, Kind.max] at h1 h2
  have hpow : (2:Int) ^ K.bits = 2 * 2 ^ (K.bits - 1) := by
    conv_lhs => rw [show K.bits = (K.bits - 1) + 1 by omega]
    ring
  rcases hs : K.signed with _ | _ <;> simp [hs] at h1 h2 ⊢
  · exact Int.emod_eq_of_lt h1 (by omega)
  · rw [hpow]
    have hmod : (x + 2 ^ (K.bits - 1)) % (2 * 2 ^ (K.bits - 1))
        = x + 2 ^ (K.bits - 1) := Int.emod_eq_of_lt (by omega) (by omega)
    omega

theorem tenPower_eq_some (K : Kind) (hK : 1 ≤ K.bits) (p : Nat)
    (h : 10 ^ p ≤ K.max) : tenPower K p = some (10 ^ p) := by
  have hpos : (0:Int) ≤ 10 ^ p := by positivity
  have hin : K.inRange (10 ^ p) := ⟨le_trans K.min_nonpos hpos, h⟩
  unfold tenPower
  rw [if_pos hin, K.wrap_eq_of_inRange hK hin]

theorem tenPower_eq_none (K : Kind) (p : Nat) (h : K.max < 10 ^ p) :
    tenPower K p = none := by
  unfold tenPower
  have : ¬ K.inRange (10 ^ p) := fun hin => absurd hin.2 (not_le.mpr h)
  simp [this]

theorem tenPower_one (K : Kind) (hK : K.wf) : tenPower K 1 = some 10 := by
  have := tenPower_eq_some K (by unfold Kind.wf at hK; omega) 1
    (by simpa using K.ten_le_max hK)
  simpa using this

/-- Truncating division by a non-negative divisor keeps a value inside the
kind's range. -/
theorem tdiv_inRange (K : Kind) {v : Int} (d : Int) (hd : 0 ≤ d)
    (hv : K.inRange v) : K.inRange (v.tdiv d) := by
  have hmin := K.min_nonpos
  have hmax := K.max_nonneg
  rcases le_or_lt 0 v with h0 | h0
  · have h1 : 0 ≤ v.tdiv d := Int.tdiv_nonneg h0 hd
    have h2 : v.tdiv d ≤ v := by
      rw [Int.tdiv_eq_ediv h0 hd]
      exact Int.ediv_le_self d h0
    exact ⟨by omega, le_trans h2 hv.2⟩
  · have hneg : v.tdiv d = -((-v).tdiv d) := by
      rw [← Int.neg_tdiv, neg_neg]
    have h1 : 0 ≤ (-v).tdiv d := Int.tdiv_nonneg (by omega) hd
    have h2 : (-v).tdiv d ≤ -v := by
      rw [Int.tdiv_eq_ediv (by omega) hd]
      exact Int.ediv_le_self d (by omega)
    have := hv.1
    constructor <;> omega

theorem Kind.neg_max_le_min (K : Kind) : -K.max - 1 ≤ K.min := by
  unfold Kind.min Kind.max
  split
  · omega
  · have : (0:Int) < 2 ^ K.bits := by positivity
    omega

theorem Kind.abs_le_max (K : Kind) {v : Int} (hv : K.inRange v)
    (h : K.min < v) : |v| ≤ K.max := by
  have := K.neg_max_le_min
  rcases le_or_lt 0 v with h0 | h0
  · rw [abs_of_nonneg h0]; exact hv.2
  · rw [abs_of_neg h0]; omega

theorem Kind.min_neg_of_signed (K : Kind) (hs : K.signed = true) : K.min < 0 := by
  unfold Kind.min
  rw [hs]
  have : (0:Int) < 2 ^ (K.bits - 1) := by positivity
  simp only [if_true]
  omega

theorem Kind.bits_pos (K : Kind) (hK : K.wf) : 1 ≤ K.bits := by
  unfold Kind.wf at hK; omega

theorem integral_eq (K : Kind) (hK : K.wf) (P : Nat) {v : Int}
    (hv : K.inRange v) (hP : K.validP P) :
    integral K P v = some (v.tdiv (10 ^ P)) := by
  rw [integral, tenPower_eq_some K (K.bits_pos hK) P hP]
  have h0 : (10:Int) ^ P ≠ 0 := by positivity
  have hin := tdiv_inRange K ((10:Int) ^ P) (by positivity) hv
  simp [checkedDiv, h0, hin]

theorem fractional_eq (K : Kind) (hK : K.wf) (P : Nat) {v : Int}
    (hv : K.inRange v) (hP : K.validP P) (h : K.min < v ∨ K.signed = false) :
    fractional K P v = some (Int.tmod |v| (10 ^ P)) := by
  rw [fractional, tenPower_eq_some K (K.bits_pos hK) P hP]
  have h0 : (10:Int) ^ P ≠ 0 := by positivity
  have hne : (10:Int) ^ P ≠ -1 := by
    have : (0:Int) < 10 ^ P := by positivity
    omega
  rcases hs : K.signed with _ | _
  · have hv0 : 0 ≤ v := by
      have := hv.1
      simp only [Kind.min, hs, Bool.false_eq_true, if_false] at this
      omega
    rw [abs_of_nonneg hv0]
    simp [numCheckedRem, hs, checkedRemRaw, h0, hne]
  · have hmin : K.min < v := by
      rcases h with h | h
      · exact h
      · rw [hs] at h; cases h
    have habs : K.inRange |v| :=
      ⟨le_trans K.min_nonpos (abs_nonneg v), K.abs_le_max hv hmin⟩
    simp [numCheckedRem, hs, rustAbs, habs, checkedRemRaw, h0, hne]

/-! ## The claims -/

/-- C9: for every supported integer kind and every exponent `p`,
`ten_power(p)` returns `Some (10^p)` exactly computed when `10^p` is
representable in the kind's range, and `None` when it would overflow. -/
theorem c9_ten_power_correct (K : Kind) (hK : K.wf) (p : Nat) :
    (K.inRange (10 ^ p) → tenPower K p = some (10 ^ p)) ∧
    (¬ K.inRange (10 ^ p) → tenPower K p = none) := by
  constructor
  · intro hin
    exact tenPower_eq_some K (K.bits_pos hK) p hin.2
  · intro hnin
    unfold tenPower
    simp [hnin]

/-- Witness for C9 at `u32`, `p = 3`. -/
theorem c9_ten_power_correct_witness : tenPower u32K 3 = some (10 ^ 3) :=
  (c9_ten_power_correct u32K (by decide) 3).1 (by decide)

/-- C5: `set_precision::<O>()` leaves the raw value unchanged when `P = O`,
divides by `10^(P-O)` truncating toward zero when narrowing, multiplies by
`10^(O-P)` when widening, and returns `none` exactly when the power of ten
is unavailable or the checked multiplication/division overflows. -/
theorem c5_set_precision_algorithm (K : Kind) (hK : K.wf) (P O : Nat)
    (v : Int) (hv : K.inRange v) :
    (P = O → setPrecision K P O v = some v) ∧
    (O < P → setPrecision K P O v =
      if 10 ^ (P - O) ≤ K.max then some (v.tdiv (10 ^ (P - O))) else none) ∧
    (P < O → setPrecision K P O v =
      if 10 ^ (O - P) ≤ K.max ∧ K.inRange (v * 10 ^ (O - P)) then
        some (v * 10 ^ (O - P)) else none) := by
  refine ⟨fun h => by simp [setPrecision, h], fun hOP => ?_, fun hPO => ?_⟩
  · unfold setPrecision
    rw [if_neg (by omega), if_pos hOP]
    by_cases hp : 10 ^ (P - O) ≤ K.max
    · rw [tenPower_eq_some K (K.bits_pos hK) _ hp, if_pos hp]
      have h0 : (10:Int) ^ (P - O) ≠ 0 := by positivity
      have hin := tdiv_inRange K ((10:Int) ^ (P - O)) (by positivity) hv
      simp [checkedDiv, h0, hin]
    · rw [tenPower_eq_none K _ (not_le.mp hp), if_neg hp]
      rfl
  · unfold setPrecision
    rw [if_neg (by omega), if_neg (by omega)]
    by_cases hp : 10 ^ (O - P) ≤ K.max
    · rw [tenPower_eq_some K (K.bits_pos hK) _ hp]
      by_cases hin : K.inRange (v * 10 ^ (O - P))
      · rw [if_pos ⟨hp, hin⟩]
        simp [checkedMul, hin]
      · rw [if_neg (by tauto)]
        simp [checkedMul, hin]
    · rw [tenPower_eq_none K _ (not_le.mp hp), if_neg (by tauto)]
      rfl

/-- Witness for C5 at `u32`, narrowing `P = 3` to `O = 2`, raw value 1234. -/
theorem c5_set_precision_algorithm_witness :
    setPrecision u32K 3 2 1234 =
      if 10 ^ (3 - 2) ≤ u32K.max then some (Int.tdiv 1234 (10 ^ (3 - 2)))
      else none :=
  (c5_set_precision_algorithm u32K (by decide) 3 2 1234 (by decide)).2.1
    (by decide)

/-- C6: widening a value and then narrowing back recovers the original;
narrowing and then widening yields the narrowed raw value scaled up by
`10^(P-O)` (zero-filled trailing digits). -/
theorem c6_widen_narrow (K : Kind) (hK : K.wf) (P O : Nat) (v w u : Int)
    (hv : K.inRange v) :
    (P ≤ O → setPrecision K P O v = some w → setPrecision K O P w = some v) ∧
    (O ≤ P → setPrecision K P O v = some w → setPrecision K O P w = some u →
      u = w * 10 ^ (P - O)) := by
  constructor
  · intro hPO h
    rcases eq_or_lt_of_le hPO with heq | hlt
    · rw [setPrecision, if_pos heq] at h
      rw [setPrecision, if_pos heq.symm, ← Option.some_inj.mp h]
    · rw [setPrecision, if_neg (by omega), if_neg (by omega)] at h
      by_cases hp : 10 ^ (O - P) ≤ K.max
      · rw [tenPower_eq_some K (K.bits_pos hK) _ hp] at h
        simp only [Option.some_bind, checkedMul] at h
        by_cases hin : K.inRange (v * 10 ^ (O - P))
        · rw [if_pos hin] at h
          obtain rfl : v * 10 ^ (O - P) = w := Option.some_inj.mp h
          rw [setPrecision, if_neg (by omega), if_pos hlt,
            tenPower_eq_some K (K.bits_pos hK) _ hp]
          have h0 : (10:Int) ^ (O - P) ≠ 0 := by positivity
          simp [checkedDiv, h0, Int.mul_tdiv_cancel v h0, hv]
        · rw [if_neg hin] at h
          cases h
      · rw [tenPower_eq_none K _ (not_le.mp hp)] at h
        cases h
  · intro hOP h1 h2
    rcases eq_or_lt_of_le hOP with heq | hlt
    · rw [setPrecision, if_pos heq.symm] at h1
      rw [setPrecision, if_pos heq] at h2
      obtain rfl : v = w := Option.some_inj.mp h1
      obtain rfl : v = u := Option.some_inj.mp h2
      rw [heq]
      simp
    · rw [setPrecision, if_neg (by omega), if_neg (by omega)] at h2
      by_cases hp : 10 ^ (P - O) ≤ K.max
      · rw [tenPower_eq_some K (K.bits_pos hK) _ hp] at h2
        simp only [Option.some_bind, checkedMul] at h2
        by_cases hin : K.inRange (w * 10 ^ (P - O))
        · rw [if_pos hin] at h2
          exact (Option.some_inj.mp h2).symm
        · rw [if_neg hin] at h2
          cases h2
      · rw [tenPower_eq_none K _ (not_le.mp hp)] at h2
        cases h2

/-- Witness for C6 at `u32`: widening 1.23 (P=3, raw 123) to P=5 gives raw
12300, and narrowing back recovers raw 123. -/
theorem c6_widen_narrow_witness : setPrecision u32K 5 3 12300 = some 123 :=
  (c6_widen_narrow u32K (by decide) 3 5 123 12300 0 (by decide)).1
    (by decide) (by decide)

/-- C2 (amended): `round_at(prec)` with `prec ≥ P` returns the value
unchanged and never fails; with `prec < P` it zeroes the lowest `P - prec`
decimal digits by truncation toward zero — for every unsigned value and for
non-negative values of signed kinds.  (The original claim extended the
truncation behaviour to negative values of signed kinds; the counterexample
below refutes that.) -/
theorem c2_round_at_truncates (K : Kind) (hK : K.wf) (P : Nat) (v : Int)
    (prec : Nat) (hv : K.inRange v) (hP : K.validP P) :
    (P ≤ prec → roundAt K P v prec = some v) ∧
    (prec < P → 0 ≤ v →
      roundAt K P v prec =
        some (10 ^ (P - prec) * v.tdiv (10 ^ (P - prec)))) := by
  constructor
  · intro h
    rw [roundAt, if_pos h]
  · intro h hv0
    rw [roundAt, if_neg (by omega)]
    set d : Int := 10 ^ (P - prec) with hd
    have hdmax : d ≤ K.max := by
      rw [hd]
      calc (10:Int) ^ (P - prec) ≤ 10 ^ P :=
            pow_le_pow_right₀ (by norm_num) (by omega)
        _ ≤ K.max := hP
    have hd0 : d ≠ 0 := by rw [hd]; positivity
    have hdneg : d ≠ -1 := by
      have : (0:Int) < d := by rw [hd]; positivity
      omega
    rw [tenPower_eq_some K (K.bits_pos hK) _ hdmax]
    have hrem : numCheckedRem K v d = some (Int.tmod v d) := by
      rcases hs : K.signed with _ | _
      · simp [numCheckedRem, hs, checkedRemRaw, hd0, hdneg]
      · have habs : K.inRange |v| := by
          rw [abs_of_nonneg hv0]; exact hv
        rw [numCheckedRem, if_pos (by simp [hs]), rustAbs, if_pos habs,
          abs_of_nonneg hv0]
        simp [checkedRemRaw, hd0, hdneg]
    rw [Option.some_bind, hrem, Option.some_bind]
    have heq := Int.tdiv_add_tmod v d
    have hmod0 : 0 ≤ Int.tmod v d := Int.tmod_nonneg d hv0
    have hdiv0 : 0 ≤ v.tdiv d := Int.tdiv_nonneg hv0 (by rw [hd]; positivity)
    have hsub : K.inRange (v - Int.tmod v d) := by
      have h1 : 0 ≤ d * v.tdiv d := by
        have : (0:Int) < d := by rw [hd]; positivity
        positivity
      have := hv.2
      have := K.min_nonpos
      constructor <;> linarith
    rw [checkedSub, if_pos hsub]
    congr 1
    linarith

/-- Witness for C2 at `u32`, `P = 3`, raw value 1234, `round_at(2)`. -/
theorem c2_round_at_truncates_witness :
    roundAt u32K 3 1234 2 = some (10 ^ (3 - 2) * Int.tdiv 1234 (10 ^ (3 - 2))) :=
  (c2_round_at_truncates u32K (by decide) 3 1234 2 (by decide) (by decide)).2
    (by decide) (by decide)

/-- Counterexample for C2 as stated: on the signed kind `i32` with digit
count 3, raw value `-1234`, `round_at(2)` yields raw value `-1238`
(`-1234 - (|-1234| % 10)`), not the digit-zeroed `-1230` the claim
prescribes. -/
theorem c2_round_at_counterexample :
    i32K.inRange (-1234) ∧ i32K.validP 3 ∧
      roundAt i32K 3 (-1234) 2 = some (-1238) ∧
      roundAt i32K 3 (-1234) 2 ≠
        some (10 ^ (3 - 2) * Int.tdiv (-1234) (10 ^ (3 - 2))) := by
  decide

/-- C3 (amended): for every valid value with non-negative raw value,
`integral * 10^P + fractional` recovers the raw value; for negative raw
values of signed kinds strictly above `MIN`, the fractional part is a
non-negative magnitude.  (The original claim covered every negative raw
value; at `MIN` the absolute-value step overflows, see the
counterexample.) -/
theorem c3_decomposition (K : Kind) (hK : K.wf) (P : Nat) (v : Int)
    (hv : K.inRange v) (hP : K.validP P) :
    (0 ≤ v → ∃ i f, integral K P v = some i ∧ fractional K P v = some f ∧
      i * 10 ^ P + f = v ∧ 0 ≤ f) ∧
    (v < 0 → K.min < v → ∃ f, fractional K P v = some f ∧ 0 ≤ f) := by
  constructor
  · intro hv0
    have hcond : K.min < v ∨ K.signed = false := by
      rcases hs : K.signed with _ | _
      · exact Or.inr rfl
      · exact Or.inl (lt_of_lt_of_le (K.min_neg_of_signed hs) hv0)
    refine ⟨v.tdiv (10 ^ P), Int.tmod |v| (10 ^ P),
      integral_eq K hK P hv hP, fractional_eq K hK P hv hP hcond, ?_, ?_⟩
    · rw [abs_of_nonneg hv0]
      have := Int.tdiv_add_tmod v ((10:Int) ^ P)
      linarith
    · exact Int.tmod_nonneg _ (abs_nonneg v)
  · intro _ hmin
    exact ⟨Int.tmod |v| (10 ^ P),
      fractional_eq K hK P hv hP (Or.inl hmin),
      Int.tmod_nonneg _ (abs_nonneg v)⟩

/-- Witness for C3 at `i32`, `P = 3`, raw value `-1234`: the fractional
part is defined and non-negative. -/
theorem c3_decomposition_witness :
    ∃ f, fractional i32K 3 (-1234) = some f ∧ 0 ≤ f :=
  (c3_decomposition i32K (by decide) 3 (-1234) (by decide) (by decide)).2
    (by decide) (by decide)

/-- Counterexample for C3 as stated: at the valid value `-128` (the `MIN`
of `i8`) with digit count 1, `fractional` does not return a value at all —
the `abs()` inside the signed `checked_rem` overflows, so there is no
non-negative fractional magnitude. -/
theorem c3_decomposition_counterexample :
    i8K.inRange (-128) ∧ i8K.validP 1 ∧ fractional i8K 1 (-128) = none := by
  decide

/-- C4 (amended): for every validly constructed value, `integral()` always
returns a value (its lookup, checked division and unwrap cannot fail), and
`fractional()` returns a value for every value of an unsigned kind and for
every value of a signed kind other than `MIN`.  (The original claim
included the signed `MIN` constant; the counterexample refutes that.) -/
theorem c4_no_observable_failure (K : Kind) (hK : K.wf) (P : Nat) (v : Int)
    (hv : K.inRange v) (hP : K.validP P) :
    (∃ i, integral K P v = some i) ∧
    (K.signed = false ∨ K.min < v → ∃ f, fractional K P v = some f) := by
  constructor
  · exact ⟨v.tdiv (10 ^ P), integral_eq K hK P hv hP⟩
  · intro h
    exact ⟨Int.tmod |v| (10 ^ P), fractional_eq K hK P hv hP h.symm⟩

/-- Witness for C4 at `i32`, `P = 3`, raw value `-1234`. -/
theorem c4_no_observable_failure_witness :
    (∃ i, integral i32K 3 (-1234) = some i) ∧
      (∃ f, fractional i32K 3 (-1234) = some f) :=
  ⟨(c4_no_observable_failure i32K (by decide) 3 (-1234) (by decide)
      (by decide)).1,
   (c4_no_observable_failure i32K (by decide) 3 (-1234) (by decide)
      (by decide)).2 (Or.inr (by decide))⟩

/-- Counterexample for C4 as stated: at the `MIN` constant of `i32` with
digit count 3 (a validly constructed value), `fractional()` fails — the
absolute-value step overflows, so the internal unwrap panics. -/
theorem c4_no_observable_failure_counterexample :
    i32K.inRange (-2147483648) ∧ i32K.validP 3 ∧
      fractional i32K 3 (-2147483648) = none := by
  decide

/-- C8: `from_integral(t)` returns `Some` of the raw value `t * 10^P` when
both `10^P` and `t * 10^P` are representable, and `None` whenever the
scaled result would exceed the kind's range. -/
theorem c8_from_integral (K : Kind) (hK : K.wf) (P : Nat) (t : Int) :
    (10 ^ P ≤ K.max → K.inRange (t * 10 ^ P) →
      fromIntegral K P t = some (t * 10 ^ P)) ∧
    (¬ K.inRange (t * 10 ^ P) → fromIntegral K P t = none) := by
  constructor
  · intro hp hin
    rw [fromIntegral, tenPower_eq_some K (K.bits_pos hK) P hp,
      Option.some_bind, checkedMul, if_pos hin]
  · intro hnin
    rw [fromIntegral]
    by_cases hp : 10 ^ P ≤ K.max
    · rw [tenPower_eq_some K (K.bits_pos hK) P hp, Option.some_bind,
        checkedMul, if_neg hnin]
    · rw [tenPower_eq_none K _ (not_le.mp hp)]
      rfl

/-- Witness for C8: on `u32` with digit count 3 the near-maximum value
`u32::MAX` does not scale — the absence signal is returned. -/
theorem c8_from_integral_witness : fromIntegral u32K 3 4294967295 = none :=
  (c8_from_integral u32K (by decide) 3 4294967295).2 (by decide)

/-- C10: `from_str` maps the empty string and the lone separator `"."` to
`Some` of the zero value: an empty integral or fractional side passes the
all-digits check vacuously and accumulates to zero. -/
theorem c10_empty_inputs_give_zero (K : Kind) (hK : K.wf) (P : Nat)
    (hP : K.validP P) : fromStr K P [] = some 0 ∧ fromStr K P ['.'] = some 0 := by
  have hten := tenPower_one K hK
  have h0 : K.inRange 0 := ⟨K.min_nonpos, K.max_nonneg⟩
  have hpow := tenPower_eq_some K (K.bits_pos hK) P hP
  constructor
  · simp [fromStr, fromStrInt, hten, splitOnce, accDigits, fromIntegral,
      hpow, checkedMul, h0]
  · rcases Nat.eq_zero_or_pos P with hP0 | hP0
    · subst hP0
      simp [fromStr, fromStrFrac, hten, splitOnce, accDigits, mkNew, hpow,
        checkedMul, h0]
    · simp [fromStr, fromStrFrac, hten, splitOnce, accDigits, mkNew, hpow,
        checkedMul, h0, hP0]

/-- Witness for C10 at `u32`, `P = 2`. -/
theorem c10_empty_inputs_give_zero_witness :
    fromStr u32K 2 [] = some 0 ∧ fromStr u32K 2 ['.'] = some 0 :=
  c10_empty_inputs_give_zero u32K (by decide) 2 (by decide)

/-! ## Digit strings: values, bounds, and the checked accumulation loop -/

theorem charVal_from_digit10 {c : Char} (h : c.isDigit = true) :
    from_digit10 c = some (charVal c) := by
  rw [from_digit10, if_pos h]
  rfl

theorem charVal_bounds {c : Char} (h : c.isDigit = true) :
    0 ≤ charVal c ∧ charVal c ≤ 9 := by
  simp only [Char.isDigit] at h
  rw [Bool.and_eq_true, decide_eq_true_eq, decide_eq_true_eq] at h
  obtain ⟨h1, h2⟩ := h
  have h1' : (48 : Nat) ≤ c.toNat := h1
  have h2' : c.toNat ≤ 57 := h2
  unfold charVal
  omega

theorem digitsVal_append (acc : Int) (l1 l2 : List Char) :
    digitsVal acc (l1 ++ l2) = digitsVal (digitsVal acc l1) l2 := by
  simp [digitsVal]

theorem digitsVal_shift (l : List Char) :
    ∀ acc : Int, digitsVal acc l = acc * 10 ^ l.length + digitsVal 0 l := by
  induction l with
  | nil => intro acc; simp [digitsVal]
  | cons c cs ih =>
    intro acc
    show digitsVal (10 * acc + charVal c) cs
      = acc * 10 ^ (c :: cs).length + digitsVal (10 * 0 + charVal c) cs
    rw [ih (10 * acc + charVal c), ih (10 * 0 + charVal c)]
    simp only [List.length_cons]
    ring

theorem digitsVal_mono (l : List Char) :
    ∀ acc : Int, 0 ≤ acc → (∀ c ∈ l, c.isDigit = true) →
    acc ≤ digitsVal acc l := by
  induction l with
  | nil => intro acc _ _; exact le_refl _
  | cons c cs ih =>
    intro acc hacc hd
    have hc := charVal_bounds (hd c (List.mem_cons_self c cs))
    have h1 : acc ≤ 10 * acc + charVal c := by omega
    have h2 := ih (10 * acc + charVal c) (by omega)
      (fun x hx => hd x (List.mem_cons_of_mem c hx))
    exact le_trans h1 h2

theorem accDigits_eq (K : Kind) (hmin : K.min ≤ 0) (l : List Char) :
    ∀ acc : Int, (∀ c ∈ l, c.isDigit = true) → 0 ≤ acc →
    digitsVal acc l ≤ K.max →
    accDigits K 10 acc l = some (digitsVal acc l) := by
  induction l with
  | nil => intro acc _ _ _; rfl
  | cons c cs ih =>
    intro acc hd hacc hbound
    have hcd : c.isDigit = true := hd c (List.mem_cons_self c cs)
    have hc := charVal_bounds hcd
    have htail : ∀ x ∈ cs, x.isDigit = true :=
      fun x hx => hd x (List.mem_cons_of_mem c hx)
    have hmono := digitsVal_mono cs (10 * acc + charVal c) (by omega) htail
    have hbound' : digitsVal (10 * acc + charVal c) cs ≤ K.max := hbound
    show ((from_digit10 c).bind fun i =>
      (checkedMul K acc 10).bind fun m =>
      (checkedAdd K m i).bind fun a =>
      accDigits K 10 a cs) = some (digitsVal (10 * acc + charVal c) cs)
    rw [charVal_from_digit10 hcd, Option.some_bind]
    have hmul : K.inRange (acc * 10) := by constructor <;> omega
    rw [checkedMul, if_pos hmul, Option.some_bind]
    have hadd : K.inRange (acc * 10 + charVal c) := by constructor <;> omega
    rw [checkedAdd, if_pos hadd, Option.some_bind]
    have hcomm : acc * 10 + charVal c = 10 * acc + charVal c := by ring
    rw [hcomm]
    exact ih (10 * acc + charVal c) htail (by omega) hbound'

theorem accDigits_append (K : Kind) (t : Int) (l1 : List Char) :
    ∀ (l2 : List Char) (acc : Int),
    accDigits K t acc (l1 ++ l2) =
      (accDigits K t acc l1).bind fun a => accDigits K t a l2 := by
  induction l1 with
  | nil => intro l2 acc; simp [accDigits]
  | cons c cs ih =>
    intro l2 acc
    have hstep : ∀ l : List Char, accDigits K t acc (c :: l) =
        (from_digit10 c).bind fun i =>
        (checkedMul K acc t).bind fun m =>
        (checkedAdd K m i).bind fun a =>
        accDigits K t a l := fun _ => rfl
    rw [show (c :: cs) ++ l2 = c :: (cs ++ l2) from rfl, hstep, hstep]
    cases from_digit10 c with
    | none => rfl
    | some i =>
      rw [Option.some_bind, Option.some_bind]
      cases checkedMul K acc t with
      | none => rfl
      | some m =>
        rw [Option.some_bind, Option.some_bind]
        cases checkedAdd K m i with
        | none => rfl
        | some a =>
          rw [Option.some_bind, Option.some_bind]
          exact ih l2 a

theorem accDigits_success_bounds (K : Kind) (l : List Char) :
    ∀ acc r : Int, 0 ≤ acc → acc ≤ K.max →
    accDigits K 10 acc l = some r → 0 ≤ r ∧ r ≤ K.max := by
  induction l with
  | nil =>
    intro acc r h1 h2 h
    obtain rfl : acc = r := Option.some_inj.mp h
    exact ⟨h1, h2⟩
  | cons c cs ih =>
    intro acc r h1 h2 h
    rw [show accDigits K 10 acc (c :: cs) =
      ((from_digit10 c).bind fun i =>
        (checkedMul K acc 10).bind fun m =>
        (checkedAdd K m i).bind fun a =>
        accDigits K 10 a cs) from rfl] at h
    rcases hfd : from_digit10 c with _ | i
    · rw [hfd] at h; cases h
    rw [hfd, Option.some_bind] at h
    have hi : 0 ≤ i := by
      rw [from_digit10] at hfd
      split at hfd
      · obtain rfl : _ = i := Option.some_inj.mp hfd
        exact (charVal_bounds (by assumption)).1
      · cases hfd
    rcases hm : checkedMul K acc 10 with _ | m
    · rw [hm] at h; cases h
    rw [hm, Option.some_bind] at h
    have hmval : m = acc * 10 ∧ K.inRange (acc * 10) := by
      rw [checkedMul] at hm
      split at hm
      · exact ⟨(Option.some_inj.mp hm).symm, by assumption⟩
      · cases hm
    rcases ha : checkedAdd K m i with _ | a
    · rw [ha] at h; cases h
    rw [ha, Option.some_bind] at h
    have haval : a = m + i ∧ K.inRange (m + i) := by
      rw [checkedAdd] at ha
      split at ha
      · exact ⟨(Option.some_inj.mp ha).symm, by assumption⟩
      · cases ha
    obtain ⟨rfl, _, hin2⟩ := haval
    exact ih (m + i) r (by obtain ⟨rfl, _⟩ := hmval; omega) hin2 h

theorem accDigits_zeros (K : Kind) (hmin : K.min ≤ 0) :
    ∀ (k : Nat) (acc : Int), 0 ≤ acc → acc ≤ K.max →
    accDigits K 10 acc (List.replicate k '0') =
      if acc * 10 ^ k ≤ K.max then some (acc * 10 ^ k) else none := by
  intro k
  induction k with
  | zero =>
    intro acc h1 h2
    simp [accDigits, h2]
  | succ k ih =>
    intro acc h1 h2
    rw [List.replicate_succ]
    have hfd : from_digit10 '0' = some 0 := by decide
    show ((from_digit10 '0').bind fun i =>
      (checkedMul K acc 10).bind fun m =>
      (checkedAdd K m i).bind fun a =>
      accDigits K 10 a (List.replicate k '0')) = _
    rw [hfd, Option.some_bind]
    have hgrow : acc * 10 ≤ acc * 10 ^ (k + 1) := by
      have hp : (10:Int) ≤ 10 ^ (k + 1) :=
        le_self_pow₀ (by norm_num) (by omega)
      exact mul_le_mul_of_nonneg_left hp h1
    by_cases hm : acc * 10 ≤ K.max
    · have hin : K.inRange (acc * 10) := ⟨by omega, hm⟩
      rw [checkedMul, if_pos hin, Option.some_bind]
      have hadd : K.inRange (acc * 10 + 0) := by simpa using hin
      rw [checkedAdd, if_pos hadd, Option.some_bind, add_zero]
      rw [ih (acc * 10) (by omega) hm]
      have heq : acc * 10 * 10 ^ k = acc * 10 ^ (k + 1) := by ring
      rw [heq]
    · have hnr : ¬ K.inRange (acc * 10) := fun hin => hm hin.2
      rw [checkedMul, if_neg hnr]
      have : ¬ (acc * 10 ^ (k + 1) ≤ K.max) := by omega
      rw [if_neg this]
      rfl

theorem splitOnce_of_append (b : List Char) :
    ∀ a : List Char, '.' ∉ a → splitOnce '.' (a ++ '.' :: b) = some (a, b) := by
  intro a
  induction a with
  | nil => intro _; simp [splitOnce]
  | cons c cs ih =>
    intro h
    have hc : c ≠ '.' := fun hc => h (hc ▸ List.mem_cons_self c cs)
    have hcs : '.' ∉ cs := fun hm => h (List.mem_cons_of_mem c hm)
    show splitOnce '.' (c :: (cs ++ '.' :: b)) = _
    rw [splitOnce, if_neg hc, ih hcs]
    rfl

theorem splitOnce_eq_none : ∀ s : List Char, '.' ∉ s → splitOnce '.' s = none := by
  intro s
  induction s with
  | nil => intro _; rfl
  | cons c cs ih =>
    intro h
    have hc : c ≠ '.' := fun hc => h (hc ▸ List.mem_cons_self c cs)
    have hcs : '.' ∉ cs := fun hm => h (List.mem_cons_of_mem c hm)
    rw [splitOnce, if_neg hc, ih hcs]
    rfl

theorem fromStr_split {K : Kind} {P : Nat} {s i1 f1 : List Char}
    (h : splitOnce '.' s = some (i1, f1)) :
    fromStr K P s = (tenPower K 1).bind fun ten => fromStrFrac K P ten i1 f1 := by
  rw [fromStr]
  congr 1
  funext ten
  rw [h]

/-- C7: parsing a dotted digit string, a fractional side shorter than `P`
is equivalent to right-padding it with implicit zero digits, and a
fractional side longer than `P` is equivalent to truncating it to its first
`P` digits (excess dropped, no rounding); in particular `"1.0234"` and
`"1.02345"` both parse to raw value 10234 at digit count 4 on `u32`. -/
theorem c7_fraction_pad_truncate (K : Kind) (hK : K.wf) (P : Nat)
    (hP : K.validP P) (i1 f1 : List Char) (hi : '.' ∉ i1)
    (hf : ∀ c ∈ f1, c.isDigit = true) :
    (P ≤ f1.length →
      fromStr K P (i1 ++ '.' :: f1) = fromStr K P (i1 ++ '.' :: f1.take P)) ∧
    (f1.length ≤ P →
      fromStr K P (i1 ++ '.' :: f1) =
        fromStr K P (i1 ++ '.' :: (f1 ++ List.replicate (P - f1.length) '0'))) ∧
    fromStr u32K 4 ['1', '.', '0', '2', '3', '4'] = some 10234 ∧
    fromStr u32K 4 ['1', '.', '0', '2', '3', '4', '5'] = some 10234 := by
  have hmin := K.min_nonpos
  have hmax := K.max_nonneg
  refine ⟨?_, ?_, by decide, by decide⟩
  · intro hlen
    rw [fromStr_split (splitOnce_of_append f1 i1 hi),
      fromStr_split (splitOnce_of_append (f1.take P) i1 hi),
      tenPower_one K hK, Option.some_bind, Option.some_bind]
    rw [fromStrFrac, fromStrFrac]
    have hfall : f1.all Char.isDigit = true := List.all_eq_true.mpr hf
    have hfall' : (f1.take P).all Char.isDigit = true :=
      List.all_eq_true.mpr fun c hc => hf c (List.take_subset P f1 hc)
    rw [hfall, hfall', List.take_take, min_self]
    have h1 : ¬ (f1.length < P) := by omega
    have h2 : ¬ ((f1.take P).length < P) := by
      rw [List.length_take]
      omega
    simp only [if_neg h1, if_neg h2]
  · intro hlen
    rw [fromStr_split (splitOnce_of_append f1 i1 hi),
      fromStr_split
        (splitOnce_of_append (f1 ++ List.replicate (P - f1.length) '0') i1 hi),
      tenPower_one K hK, Option.some_bind, Option.some_bind]
    rw [fromStrFrac, fromStrFrac]
    have hfall : f1.all Char.isDigit = true := List.all_eq_true.mpr hf
    have hgall : (f1 ++ List.replicate (P - f1.length) '0').all Char.isDigit
        = true := by
      rw [List.all_append, hfall, Bool.true_and, List.all_eq_true]
      intro c hc
      rw [List.eq_of_mem_replicate hc]
      decide
    rw [hfall, hgall]
    by_cases hia : i1.all Char.isDigit = true
    · rw [hia]
      simp only [not_true_eq_false, if_false, not_false_eq_true, if_true]
      rcases ha1 : accDigits K 10 0 i1 with _ | a1
      · rfl
      rw [Option.some_bind, Option.some_bind]
      have hb1 := accDigits_success_bounds K i1 0 a1 le_rfl hmax ha1
      have hf1take : f1.take P = f1 := List.take_of_length_le hlen
      have hglen : (f1 ++ List.replicate (P - f1.length) '0').length = P := by
        rw [List.length_append, List.length_replicate]
        omega
      have hgtake : (f1 ++ List.replicate (P - f1.length) '0').take P
          = f1 ++ List.replicate (P - f1.length) '0' :=
        List.take_of_length_le (by omega)
      rw [hf1take, hgtake, accDigits_append]
      rcases ha2 : accDigits K 10 a1 f1 with _ | a2
      · rfl
      rw [Option.some_bind, Option.some_bind]
      have hb2 := accDigits_success_bounds K f1 a1 a2 hb1.1 hb1.2 ha2
      rw [accDigits_zeros K hmin (P - f1.length) a2 hb2.1 hb2.2]
      have hglt : ¬ ((f1 ++ List.replicate (P - f1.length) '0').length < P) := by
        omega
      simp only [if_neg hglt, Option.some_bind]
      rcases Nat.eq_or_lt_of_le hlen with heq | hlt
      · have h1 : ¬ (f1.length < P) := by omega
        rw [if_neg h1]
        have hk0 : P - f1.length = 0 := by omega
        rw [hk0, pow_zero, mul_one, if_pos hb2.2]
      · rw [if_pos hlt]
        have hpk : 10 ^ (P - f1.length) ≤ K.max :=
          le_trans (pow_le_pow_right₀ (by norm_num) (by omega)) hP
        rw [tenPower_eq_some K (K.bits_pos hK) _ hpk, Option.some_bind]
        by_cases hle : a2 * 10 ^ (P - f1.length) ≤ K.max
        · have hin : K.inRange (a2 * 10 ^ (P - f1.length)) :=
            ⟨le_trans hmin (mul_nonneg hb2.1 (by positivity)), hle⟩
          rw [checkedMul, if_pos hin, if_pos hle]
        · have hnin : ¬ K.inRange (a2 * 10 ^ (P - f1.length)) :=
            fun hin => hle hin.2
          rw [checkedMul, if_neg hnin, if_neg hle]
    · rw [if_pos hia, if_pos hia]

/-- Witness for C7 at `u32`, `P = 4`: truncating `"1.02345"`'s fractional
side to 4 digits does not change the parse. -/
theorem c7_fraction_pad_truncate_witness :
    fromStr u32K 4 (['1'] ++ '.' :: ['0', '2', '3', '4', '5']) =
      fromStr u32K 4 (['1'] ++ '.' :: ['0', '2', '3', '4', '5'].take 4) :=
  (c7_fraction_pad_truncate u32K (by decide) 4 (by decide) ['1']
    ['0', '2', '3', '4', '5'] (by decide) (by decide)).1 (by decide)

/-! ## Decimal formatting of machine integers -/

theorem digitChar_isDigit {d : Nat} (h : d < 10) :
    (digitChar d).isDigit = true := by
  interval_cases d <;> decide

theorem charVal_digitChar {d : Nat} (h : d < 10) :
    charVal (digitChar d) = (d : Int) := by
  interval_cases d <;> decide

theorem natChars_digits (n : Nat) : ∀ c ∈ natChars n, c.isDigit = true := by
  unfold natChars
  split
  · intro c hc
    rw [List.mem_singleton] at hc
    subst hc
    decide
  · intro c hc
    rw [List.mem_reverse, List.mem_map] at hc
    obtain ⟨d, hd, rfl⟩ := hc
    exact digitChar_isDigit (Nat.digits_lt_base (by norm_num) hd)

theorem natChars_no_dot (n : Nat) : '.' ∉ natChars n := fun h =>
  absurd (natChars_digits n '.' h) (by decide)

theorem digitsVal_rev_digits (L : List Nat) :
    ∀ acc : Int, (∀ d ∈ L, d < 10) →
    digitsVal acc ((L.map digitChar).reverse)
      = acc * 10 ^ L.length + (((Nat.ofDigits 10 L : Nat)) : Int) := by
  induction L with
  | nil => intro acc _; simp [digitsVal, Nat.ofDigits_nil]
  | cons d L ih =>
    intro acc hL
    have hd : d < 10 := hL d (List.mem_cons_self d L)
    have hL' : ∀ x ∈ L, x < 10 := fun x hx => hL x (List.mem_cons_of_mem d hx)
    rw [List.map_cons, List.reverse_cons, digitsVal_append, ih acc hL']
    show 10 * (acc * 10 ^ L.length + (((Nat.ofDigits 10 L : Nat)) : Int))
        + charVal (digitChar d) = _
    rw [charVal_digitChar hd, Nat.ofDigits_cons]
    push_cast
    simp only [List.length_cons]
    ring

theorem digitsVal_natChars (n : Nat) (acc : Int) :
    digitsVal acc (natChars n) = acc * 10 ^ (natChars n).length + (n : Int) := by
  unfold natChars
  split
  · rename_i h
    subst h
    show 10 * acc + charVal '0' = acc * 10 ^ (1:Nat) + ((0:Nat) : Int)
    have h0 : charVal '0' = 0 := by decide
    rw [h0]
    push_cast
    ring
  · rw [digitsVal_rev_digits (Nat.digits 10 n) acc
      (fun d hd => Nat.digits_lt_base (by norm_num) hd), Nat.ofDigits_digits]
    simp

theorem natChars_length_le {n P : Nat} (hP : 1 ≤ P) (h : n < 10 ^ P) :
    (natChars n).length ≤ P := by
  unfold natChars
  split
  · simpa using hP
  · rename_i hn
    rw [List.length_reverse, List.length_map]
    by_contra hgt
    push_neg at hgt
    have h1 := Nat.base_pow_length_digits_le 10 n (by norm_num) hn
    have h2 : 10 ^ (P + 1) ≤ 10 ^ (Nat.digits 10 n).length :=
      Nat.pow_le_pow_right (by norm_num) (by omega)
    have h3 : (10:ℕ) ^ (P + 1) = 10 * 10 ^ P := by ring
    omega

theorem digitsVal_replicate_zeros :
    ∀ (m : Nat) (acc : Int),
    digitsVal acc (List.replicate m '0') = acc * 10 ^ m := by
  intro m
  induction m with
  | zero => intro acc; simp [digitsVal]
  | succ m ih =>
    intro acc
    rw [List.replicate_succ]
    show digitsVal (10 * acc + charVal '0') (List.replicate m '0') = _
    have h0 : charVal '0' = 0 := by decide
    rw [h0, add_zero, ih]
    ring

/-- C1 (amended): for every backing kind and valid digit count, formatting
a value with non-negative raw value and parsing the text back with
`from_str` yields `Some` of a value with the same raw value.  (The original
claim covered every valid raw value; for negative values of signed kinds
the round-trip fails because `from_str` rejects the `'-'` sign — see the
counterexample.) -/
theorem c1_format_parse_roundtrip (K : Kind) (hK : K.wf) (P : Nat) (v : Int)
    (hv : K.inRange v) (hP : K.validP P) (hv0 : 0 ≤ v) :
    ∃ s, formatDec K P v = some s ∧ fromStr K P s = some v := by
  have hmin := K.min_nonpos
  have hmax := K.max_nonneg
  have hdpos : (0:Int) < 10 ^ P := by positivity
  have hip := integral_eq K hK P hv hP
  have hcond : K.min < v ∨ K.signed = false := by
    rcases hs : K.signed with _ | _
    · exact Or.inr rfl
    · exact Or.inl (lt_of_lt_of_le (K.min_neg_of_signed hs) hv0)
  have hfr := fractional_eq K hK P hv hP hcond
  rw [abs_of_nonneg hv0] at hfr
  have hi0 : 0 ≤ v.tdiv (10 ^ P) := Int.tdiv_nonneg hv0 (le_of_lt hdpos)
  have hiv : v.tdiv (10 ^ P) ≤ v := by
    rw [Int.tdiv_eq_ediv hv0 (le_of_lt hdpos)]
    exact Int.ediv_le_self _ hv0
  have hf0 : 0 ≤ Int.tmod v (10 ^ P) := Int.tmod_nonneg _ hv0
  have hflt : Int.tmod v (10 ^ P) < 10 ^ P := Int.tmod_lt_of_pos v hdpos
  have heq := Int.tdiv_add_tmod v ((10:Int) ^ P)
  refine ⟨intChars (v.tdiv (10 ^ P)) ++ '.'
      :: zeroPad P (intChars (Int.tmod v (10 ^ P))), ?_, ?_⟩
  · rw [formatDec, hip, Option.some_bind, hfr, Option.some_bind]
  · have hii : intChars (v.tdiv (10 ^ P)) = natChars (v.tdiv (10 ^ P)).toNat := by
      rw [intChars, if_neg (not_lt.mpr hi0)]
    have hff : intChars (Int.tmod v (10 ^ P))
        = natChars (Int.tmod v (10 ^ P)).toNat := by
      rw [intChars, if_neg (not_lt.mpr hf0)]
    rw [hii, hff]
    rw [fromStr_split (splitOnce_of_append _ _ (natChars_no_dot _)),
      tenPower_one K hK, Option.some_bind, fromStrFrac]
    have hiall : (natChars (v.tdiv (10 ^ P)).toNat).all Char.isDigit = true :=
      List.all_eq_true.mpr (natChars_digits _)
    have hpdig :
        ∀ c ∈ zeroPad P (natChars (Int.tmod v (10 ^ P)).toNat),
          c.isDigit = true := by
      intro c hc
      rw [zeroPad, List.mem_append] at hc
      rcases hc with hc | hc
      · rw [List.eq_of_mem_replicate hc]
        decide
      · exact natChars_digits _ c hc
    have hfall : (zeroPad P (natChars (Int.tmod v (10 ^ P)).toNat)).all
        Char.isDigit = true := List.all_eq_true.mpr hpdig
    rw [hiall, hfall]
    simp only [not_true_eq_false, if_false, not_false_eq_true, if_true]
    have hival : digitsVal 0 (natChars (v.tdiv (10 ^ P)).toNat)
        = v.tdiv (10 ^ P) := by
      rw [digitsVal_natChars, Int.toNat_of_nonneg hi0]
      ring
    have hiacc : accDigits K 10 0 (natChars (v.tdiv (10 ^ P)).toNat)
        = some (v.tdiv (10 ^ P)) := by
      have h := accDigits_eq K hmin (natChars (v.tdiv (10 ^ P)).toNat) 0
        (natChars_digits _) le_rfl (by rw [hival]; exact le_trans hiv hv.2)
      rw [hival] at h
      exact h
    rw [hiacc, Option.some_bind]
    rcases Nat.eq_zero_or_pos P with hP0 | hP0
    · subst hP0
      have hf00 : Int.tmod v (10 ^ 0) = 0 := by
        rw [pow_zero, Int.tmod_one]
      have hiv' : v.tdiv (10 ^ 0) = v := by
        rw [pow_zero, Int.tdiv_one]
      rw [hf00, hiv']
      show (accDigits K 10 v (List.take 0 _)).bind _ = some v
      rw [List.take_zero]
      show (some v).bind _ = some v
      rw [Option.some_bind]
      have hlt : ¬ ((zeroPad 0 (natChars (Int.toNat 0))).length < 0) :=
        Nat.not_lt_zero _
      rw [if_neg hlt, Option.some_bind, mkNew,
        if_pos (by rw [tenPower_eq_some K (K.bits_pos hK) 0 hP]; rfl)]
    · have hfnat : (Int.tmod v (10 ^ P)).toNat < 10 ^ P := by
        zify
        rw [Int.toNat_of_nonneg hf0]
        exact hflt
      have hlen : (natChars (Int.tmod v (10 ^ P)).toNat).length ≤ P :=
        natChars_length_le hP0 hfnat
      have hlenpad : (zeroPad P (natChars (Int.tmod v (10 ^ P)).toNat)).length
          = P := by
        rw [zeroPad, List.length_append, List.length_replicate]
        omega
      rw [List.take_of_length_le (le_of_eq hlenpad)]
      have hpadval : digitsVal (v.tdiv (10 ^ P))
          (zeroPad P (natChars (Int.tmod v (10 ^ P)).toNat)) = v := by
        rw [zeroPad, digitsVal_append, digitsVal_replicate_zeros,
          digitsVal_natChars, Int.toNat_of_nonneg hf0]
        have hcomb : v.tdiv (10 ^ P)
              * 10 ^ (P - (natChars (Int.tmod v (10 ^ P)).toNat).length)
              * 10 ^ (natChars (Int.tmod v (10 ^ P)).toNat).length
            = v.tdiv (10 ^ P) * 10 ^ P := by
          rw [mul_assoc, ← pow_add, Nat.sub_add_cancel hlen]
        rw [hcomb]
        linarith
      have hacc2 : accDigits K 10 (v.tdiv (10 ^ P))
          (zeroPad P (natChars (Int.tmod v (10 ^ P)).toNat)) = some v := by
        have h := accDigits_eq K hmin _ (v.tdiv (10 ^ P)) hpdig hi0
          (by rw [hpadval]; exact hv.2)
        rw [hpadval] at h
        exact h
      rw [hacc2, Option.some_bind,
        if_neg (by rw [hlenpad]; exact lt_irrefl P), Option.some_bind, mkNew,
        if_pos (by rw [tenPower_eq_some K (K.bits_pos hK) P hP]; rfl)]

/-- Witness for C1 at `u32`, `P = 3`, raw value 1234. -/
theorem c1_format_parse_roundtrip_witness :
    ∃ s, formatDec u32K 3 1234 = some s ∧ fromStr u32K 3 s = some 1234 :=
  c1_format_parse_roundtrip u32K (by decide) 3 1234 (by decide) (by decide)
    (by decide)

/-- Counterexample for C1 as stated: on the signed kind `i8` with digit
count 1, the valid raw value `-12` formats as `"-1.2"`, but `from_str`
rejects the `'-'` sign, so parsing the formatted text yields the absence
signal instead of the original value. -/
theorem c1_format_parse_counterexample :
    i8K.inRange (-12) ∧ i8K.validP 1 ∧
      formatDec i8K 1 (-12) = some ['-', '1', '.', '2'] ∧
      fromStr i8K 1 ['-', '1', '.', '2'] = none := by
  refine ⟨by decide, by decide, ?_, by decide⟩
  have h1 : integral i8K 1 (-12) = some (-1) := by decide
  have h2 : fractional i8K 1 (-12) = some 2 := by decide
  rw [formatDec, h1, Option.some_bind, h2, Option.some_bind]
  have hd1 : Nat.digits 10 1 = [1] := by norm_num [Nat.digits_def']
  have hd2 : Nat.digits 10 2 = [2] := by norm_num [Nat.digits_def']
  have hn1 : natChars 1 = ['1'] := by
    rw [natChars, if_neg one_ne_zero, hd1]
    decide
  have hn2 : natChars 2 = ['2'] := by
    rw [natChars, if_neg (by decide), hd2]
    decide
  have hi : intChars (-1) = '-' :: natChars 1 := by
    rw [intChars, if_pos (by decide : (-1:Int) < 0),
      show ((-1:Int)).natAbs = 1 from by decide]
  have hf : intChars 2 = natChars 2 := by
    rw [intChars, if_neg (by decide), show ((2:Int)).toNat = 2 from by decide]
  rw [hi, hf, hn1, hn2]
  decide

end FixedDecSpec
